import Mathlib

/-!
Verification of the stampli badge generator's configuration, threshold-table
and color logic, as a shallow embedding of the Go sources (`levels.go`,
`util.go`, `main.go`).

Modelling conventions:

* Go strings are modelled as `List Char`.  The Go code indexes strings by
  byte and ranges over them by rune; on the inputs all of these functions
  are specified for (ASCII tokens: hex colors, numbers, `=`/`,` separators)
  the byte-level and character-level views coincide, and every result
  proved below is stated at the character level.
* Go `float64` values are modelled as exact rationals (`ℚ`).  The IEEE
  artefacts that this idealisation drops (binary rounding of decimal
  literals, infinities, NaN, range overflow/underflow errors from
  `strconv.ParseFloat`, hexadecimal float literals) are noted at the
  definitions concerned; none of the properties treated here depends on
  them.
* A Go `map[float64]string` is modelled as a list of key/value pairs whose
  keys are pairwise distinct; map iteration order is unobservable in the
  functions below because each of them sorts the keys first.
-/

/-- Whitespace test used by Go's `strings.TrimSpace` (`unicode.IsSpace`):
tab, newline, vertical tab, form feed, carriage return, space, NEL, NBSP,
and the Unicode `White_Space` separators. -/
def isGoSpace (c : Char) : Bool :=
  let n := c.toNat
  decide (n = 0x20) || decide (0x09 ≤ n ∧ n ≤ 0x0d) ||
    decide (n = 0x85) || decide (n = 0xa0) || decide (n = 0x1680) ||
    decide (0x2000 ≤ n ∧ n ≤ 0x200a) || decide (n = 0x2028) ||
    decide (n = 0x2029) || decide (n = 0x202f) || decide (n = 0x205f) ||
    decide (n = 0x3000)

/-- Go `strings.TrimSpace`: drop leading and trailing whitespace. -/
def trimSpace (s : List Char) : List Char :=
  ((s.dropWhile isGoSpace).reverse.dropWhile isGoSpace).reverse

/-- Go `strings.SplitSeq(s, ",")` collected into a list: split at every
comma, keeping empty segments, so the result always has one more segment
than there are commas. -/
def splitComma : List Char → List (List Char)
  | [] => [[]]
  | c :: t =>
    if c = ',' then [] :: splitComma t
    else
      match splitComma t with
      | [] => [[c]]
      | p :: ps => (c :: p) :: ps

/-- Go `strings.SplitN(part, "=", 2)`: `none` when `part` has no `=`
(`SplitN` then returns the one-element slice `[part]`), otherwise the text
before and after the first `=`. -/
def splitEq2 : List Char → Option (List Char × List Char)
  | [] => none
  | c :: t =>
    if c = '=' then some ([], t)
    else (splitEq2 t).map (fun p => (c :: p.1, p.2))

/-- Hex-digit test from `isValidHexColor` (`util.go`):
`[0-9a-fA-F]`, written exactly as the three range checks of the source. -/
def isHexDigitChar (c : Char) : Bool :=
  decide ('0' ≤ c ∧ c ≤ '9') || decide ('a' ≤ c ∧ c ≤ 'f') ||
    decide ('A' ≤ c ∧ c ≤ 'F')

/-- Embedding of `isValidHexColor` (`util.go`): a leading `#`, a remainder
of exactly 3 or exactly 6 characters, every one of them a hex digit. -/
def isValidHexColor (color : List Char) : Bool :=
  match color with
  | [] => false
  | c :: rest =>
    if c = '#' then
      if rest.length = 3 ∨ rest.length = 6 then rest.all isHexDigitChar
      else false
    else false

/-- Value of a decimal digit, `none` for any other character. -/
def digitVal? (c : Char) : Option ℕ :=
  if '0' ≤ c ∧ c ≤ '9' then some (c.toNat - '0'.toNat) else none

/-- Value of a hexadecimal digit, `none` for any other character. -/
def hexVal? (c : Char) : Option ℕ :=
  if '0' ≤ c ∧ c ≤ '9' then some (c.toNat - '0'.toNat)
  else if 'a' ≤ c ∧ c ≤ 'f' then some (c.toNat - 'a'.toNat + 10)
  else if 'A' ≤ c ∧ c ≤ 'F' then some (c.toNat - 'A'.toNat + 10)
  else none

/-- Run of decimal digits in which an underscore may stand between two
digits (the Go literal syntax accepted by `strconv.ParseFloat`); carries
the accumulated value and the digit count.  The run must use up the whole
list. -/
def digitsUAux : List Char → ℕ → ℕ → Option (ℕ × ℕ)
  | [], v, n => some (v, n)
  | c :: t, v, n =>
    if c = '_' then
      match t with
      | [] => none
      | d :: t' =>
        match digitVal? d with
        | some dv => digitsUAux t' (v * 10 + dv) (n + 1)
        | none => none
    else
      match digitVal? c with
      | some dv => digitsUAux t (v * 10 + dv) (n + 1)
      | none => none

/-- Nonempty underscore-separated digit run (must start with a digit). -/
def digitsU? (l : List Char) : Option (ℕ × ℕ) :=
  match l with
  | [] => none
  | c :: t =>
    match digitVal? c with
    | some dv => digitsUAux t dv 1
    | none => none

/-- Possibly empty underscore-separated digit run. -/
def digitsU0? (l : List Char) : Option (ℕ × ℕ) :=
  if l = [] then some (0, 0) else digitsU? l

/-- Cut a list at the first character satisfying `test`; the second
component is `none` when no such character occurs. -/
def breakAt (test : Char → Bool) : List Char → (List Char × Option (List Char))
  | [] => ([], none)
  | c :: t =>
    if test c then ([], some t)
    else
      let r := breakAt test t
      (c :: r.1, r.2)

/-- Exponent part of a float literal: optional sign, nonempty digit run. -/
def parseExp? (l : List Char) : Option ℤ :=
  match l with
  | '+' :: t => (digitsU? t).map (fun p => (p.1 : ℤ))
  | '-' :: t => (digitsU? t).map (fun p => -(p.1 : ℤ))
  | t => (digitsU? t).map (fun p => (p.1 : ℤ))

/-- Embedding of `strconv.ParseFloat(s, 64)` on finite decimal input:
optional sign, decimal mantissa with at most one point and at least one
digit (underscores may separate digits, per the Go literal syntax),
optional decimal exponent.  The value is the exact rational denoted.
Idealisations of the `float64` result: binary rounding is dropped, and the
`Inf`/`NaN` forms, hexadecimal mantissas and the range-error cases
(magnitudes over/underflowing `float64`) are outside the rational model
and rejected here; no threshold handled by this repository touches them. -/
def parseFloat? (s : List Char) : Option ℚ :=
  let sgn : Bool × List Char :=
    match s with
    | '+' :: t => (false, t)
    | '-' :: t => (true, t)
    | t => (false, t)
  match s with
  | [] => none
  | _ =>
    let mantExp := breakAt (fun c => c = 'e' || c = 'E') sgn.2
    let intFrac := breakAt (fun c => c = '.') mantExp.1
    do
      let iv ← digitsU0? intFrac.1
      let fv ←
        match intFrac.2 with
        | none => some ((0 : ℕ), (0 : ℕ))
        | some f => digitsU0? f
      if iv.2 + fv.2 = 0 then none
      else do
        let e ←
          match mantExp.2 with
          | none => some (0 : ℤ)
          | some ep => parseExp? ep
        let m : ℕ := iv.1 * 10 ^ fv.2 + fv.1
        let t : ℤ := e - fv.2
        let n : ℤ := if sgn.1 then -(m : ℤ) else (m : ℤ)
        some (if 0 ≤ t then mkRat (n * (10 : ℤ) ^ t.toNat) 1
              else mkRat n ((10 : ℕ) ^ (-t).toNat))

/-- Threshold table of `levels.go`: Go's `map[float64]string` as a list of
threshold/color pairs; the faithful domain is lists with pairwise distinct
keys, and every observation below sorts the keys, so list order never
shows. -/
abbrev Levels := List (ℚ × List Char)

/-- Fallback color returned by `GetColorForCoverage` when no threshold
qualifies. -/
def fallbackColor : List Char := ['#', 'f', 'f', '0', '0', '0', '1']

/-- Map read `(*l)[k]` on the list model. -/
def lookupLevel (k : ℚ) : Levels → Option (List Char)
  | [] => none
  | p :: t => if p.1 = k then some p.2 else lookupLevel k t

/-- Map write `(*l)[k] = v` on the list model: replace the binding if the
key is present, otherwise append it. -/
def insertLevel (k : ℚ) (v : List Char) : Levels → Levels
  | [] => [(k, v)]
  | p :: t => if p.1 = k then (k, v) :: t else p :: insertLevel k v t

/-- Error cases of `Levels.Set` (`levels.go`), named after the sentinel
errors of the source; each carries the offending token the source puts in
the message. -/
inductive SetErr where
  | errInvalidLevelFormat : List Char → SetErr
  | errInvalidLevelNumber : List Char → SetErr
  | errInvalidHexColor : List Char → SetErr
deriving DecidableEq

/-- Loop body of `Levels.Set` over the comma-separated segments, carrying
the receiver map being populated.  Mirrors the source line by line: trim
the segment and skip it when empty; report a format error when it has no
`=`; parse the trimmed threshold (empty means 0, otherwise
`strconv.ParseFloat`); validate the trimmed color; store the pair and
continue.  On error the accumulated map is returned as is, exactly as the
Go receiver keeps the entries already stored. -/
def setGo : List (List Char) → Levels → Levels × Option SetErr
  | [], acc => (acc, none)
  | part :: rest, acc =>
    let p := trimSpace part
    if p = [] then setGo rest acc
    else
      match splitEq2 p with
      | none => (acc, some (SetErr.errInvalidLevelFormat p))
      | some kv =>
        let levelStr := trimSpace kv.1
        match (if levelStr = [] then some 0 else parseFloat? levelStr : Option ℚ) with
        | none => (acc, some (SetErr.errInvalidLevelNumber levelStr))
        | some level =>
          let color := trimSpace kv.2
          if isValidHexColor color then setGo rest (insertLevel level color acc)
          else (acc, some (SetErr.errInvalidHexColor color))

/-- Embedding of `Levels.Set` (`levels.go`).  The source begins with
`*l = map[float64]string{}`, so the receiver's prior value never matters;
the model therefore takes only the input text and returns the final
receiver state together with the optional error. -/
def Levels.set (value : List Char) : Levels × Option SetErr :=
  setGo (splitComma value) []

/-- Rounding performed by Go's `fmt.Sprintf("%.0f", k)`: round to the
nearest integer, ties to the even one, computed on the numerator and
denominator so that it evaluates by kernel reduction. -/
def roundHalfEven (q : ℚ) : ℤ :=
  let n := q.num
  let d := (q.den : ℤ)
  let f := n / d
  let r2 := 2 * (n - f * d)
  if r2 < d then f
  else if d < r2 then f + 1
  else if f % 2 = 0 then f else f + 1

/-- Decimal digits of `n` (most significant first), by fuel recursion so
that it evaluates by kernel reduction. -/
def natDigitsAux : ℕ → ℕ → List Char
  | 0, _ => []
  | fuel + 1, n =>
    if n = 0 then []
    else natDigitsAux fuel (n / 10) ++ [Char.ofNat ('0'.toNat + n % 10)]

/-- Decimal rendering of a natural number. -/
def natRepr (n : ℕ) : List Char :=
  if n = 0 then ['0'] else natDigitsAux (n + 1) n

/-- Go's `fmt.Sprintf("%.0f", q)` on the rational model: the half-even
rounded integer in decimal, with Go's sign handling (a negative value that
rounds to zero prints as `-0`). -/
def fmtF0 (q : ℚ) : List Char :=
  let r := roundHalfEven q
  if q < 0 ∧ r = 0 then ['-', '0']
  else if r < 0 then '-' :: natRepr (-r).toNat
  else natRepr r.toNat

/-- Go `strings.Join(parts, ",")`. -/
def joinComma : List (List Char) → List Char
  | [] => []
  | [x] => x
  | x :: xs => x ++ ',' :: joinComma xs

/-- Ascending key order on threshold/color pairs (`sort.Float64s` in
`Levels.String`). -/
@[reducible]
def keyLe (a b : ℚ × List Char) : Prop := a.1 ≤ b.1

/-- Descending key order on threshold/color pairs
(`sort.Sort(sort.Reverse(sort.Float64Slice(...)))` in
`GetColorForCoverage`). -/
@[reducible]
def keyGe (a b : ℚ × List Char) : Prop := b.1 ≤ a.1

instance : DecidableRel keyLe := fun a b => inferInstanceAs (Decidable (a.1 ≤ b.1))

instance : DecidableRel keyGe := fun a b => inferInstanceAs (Decidable (b.1 ≤ a.1))

instance : IsTotal (ℚ × List Char) keyLe := ⟨fun a b => le_total a.1 b.1⟩

instance : IsTrans (ℚ × List Char) keyLe := ⟨fun _ _ _ h h' => le_trans h h'⟩

instance : IsTotal (ℚ × List Char) keyGe := ⟨fun a b => le_total b.1 a.1⟩

instance : IsTrans (ℚ × List Char) keyGe := ⟨fun _ _ _ h h' => le_trans h' h⟩

/-- Embedding of `Levels.String` (`levels.go`): sort the entries by
ascending threshold, render each as `%.0f=color`, join with commas.  The
source sorts the key slice and reads the map at each key; on the faithful
domain (distinct keys) that is sorting the pairs by key.  The source's
early `""` return for the empty map coincides with joining no parts. -/
def Levels.string (l : Levels) : List Char :=
  joinComma ((List.insertionSort keyLe l).map (fun p => fmtF0 p.1 ++ '=' :: p.2))

/-- Embedding of `Levels.GetColorForCoverage` (`levels.go`): sort the
entries by descending threshold, return the color of the first threshold
with `coverage >= level`, else the fixed fallback.  The source sorts the
key slice and reads the map at the found key; on the faithful domain
(distinct keys) that read returns the found pair's color. -/
def Levels.GetColorForCoverage (l : Levels) (coverage : ℚ) : List Char :=
  match (List.insertionSort keyGe l).find? (fun p => decide (p.1 ≤ coverage)) with
  | some p => p.2
  | none => fallbackColor

/-- Go `strings.TrimPrefix(s, "#")`. -/
def trimPrefixHash : List Char → List Char
  | [] => []
  | c :: t => if c = '#' then t else c :: t

/-- The 3-digit to 6-digit expansion of `getOptimalTextColor` (`util.go`):
under the source's `len(hexColor) == 3` guard each of the three characters
is doubled; any other length is left alone. -/
def expandHex : List Char → List Char
  | [a, b, c] => [a, a, b, b, c, c]
  | s => s

/-- Go string slicing `s[a:b]`: defined when `a <= b <= len(s)`, a runtime
panic otherwise — modelled as `none`. -/
def goSlice (s : List Char) (a b : ℕ) : Option (List Char) :=
  if a ≤ b ∧ b ≤ s.length then some ((s.drop a).take (b - a)) else none

/-- Accumulator loop for a run of hexadecimal digits. -/
def hexRunAux : List Char → ℕ → Option ℕ
  | [], acc => some acc
  | c :: t, acc =>
    match hexVal? c with
    | some d => hexRunAux t (acc * 16 + d)
    | none => none

/-- Embedding of `strconv.ParseInt(s, 16, 0)`: optional sign followed by a
nonempty run of hex digits (with an explicit base there is no `0x` prefix
and no underscore support).  The `bitSize` overflow error cannot occur at
the call sites (two-character slices) and is not modelled. -/
def parseInt16? (s : List Char) : Option ℤ :=
  match s with
  | [] => none
  | c :: t =>
    if c = '+' then if t = [] then none else (hexRunAux t 0).map (fun n => (n : ℤ))
    else if c = '-' then if t = [] then none else (hexRunAux t 0).map (fun n => -(n : ℤ))
    else (hexRunAux (c :: t) 0).map (fun n => (n : ℤ))

/-- White text, returned for dark backgrounds. -/
def whiteText : List Char := ['#', 'f', 'f', 'f', 'f', 'f', 'f']

/-- Black text, returned for light backgrounds. -/
def blackText : List Char := ['#', '0', '0', '0', '0', '0', '0']

/-- Embedding of `getOptimalTextColor` (`util.go`): strip `#`, expand a
3-character value, slice the three channel substrings (a slice out of
bounds is a Go panic, modelled as `none`), parse each channel discarding
the parse error exactly as the source's `r, _ := strconv.ParseInt` does
(a failed parse leaves the channel 0), then decide between black and white
text.  The WCAG luminance computation of the source (steps on `float64`
with `math.Pow`) is total arithmetic on the three parsed channels; it is
abstracted as the Boolean-valued parameter `lum` (`true` means luminance
above 0.5, light background, black text), and every property proved below
holds for every such function. -/
def getOptimalTextColor (lum : ℤ → ℤ → ℤ → Bool) (hexColor : List Char) :
    Option (List Char) :=
  let h := expandHex (trimPrefixHash hexColor)
  match goSlice h 0 2, goSlice h 2 4, goSlice h 4 6 with
  | some rs, some gs, some bs =>
    some (if lum ((parseInt16? rs).getD 0) ((parseInt16? gs).getD 0)
              ((parseInt16? bs).getD 0)
          then blackText else whiteText)
  | _, _, _ => none

/-- Configuration record of `main.go` (`type config struct`).  `levels`
carries `Option` because the Go zero value of a map field is `nil`, and
the `json:"levels,omitzero"` tag makes that distinction observable in
`merge`; `CoveragePC` is the `*float64` pointer field. -/
structure config where
  levels : Option Levels
  CoveragePC : Option ℚ
  TestCommand : List Char
  OutputFile : List Char
  ConfigFile : List Char
  Template : List Char
  DumpTemplate : Bool
  DumpConfig : Bool
  Quiet : Bool
  AutoClean : Bool
deriving DecidableEq

/-- Embedding of `config.merge` (`main.go`), which marshals `other` to
JSON and unmarshals the document into the receiver, then copies the
coverage pointer when set.  Field by field, per the struct tags:

* `TestCommand`, `OutputFile`, `Template` and the four booleans are always
  present in the marshalled document and overwrite the receiver wholesale;
* `levels` is tagged `omitzero`: a `nil` table is omitted from the
  document, leaving the receiver's table untouched; a non-`nil` table is
  marshalled through `Levels.String` and unmarshalled through `Levels.Set`
  (its `UnmarshalJSON`), so it replaces the receiver's table with the
  reparse of the serialized form — and can fail, failing the merge, when a
  stored color does not validate;
* `CoveragePC` and `ConfigFile` are tagged `json:"-"` and never enter the
  document; the source then copies `other.CoveragePC` explicitly when it
  is non-`nil`, while `ConfigFile` always keeps the receiver's value. -/
def config.merge (c other : config) : Except SetErr config :=
  let covMerged : Option ℚ :=
    match other.CoveragePC with
    | none => c.CoveragePC
    | some w => some w
  match other.levels with
  | none =>
    Except.ok
      { levels := c.levels, CoveragePC := covMerged,
        TestCommand := other.TestCommand, OutputFile := other.OutputFile,
        ConfigFile := c.ConfigFile, Template := other.Template,
        DumpTemplate := other.DumpTemplate, DumpConfig := other.DumpConfig,
        Quiet := other.Quiet, AutoClean := other.AutoClean }
  | some lv =>
    match Levels.set (Levels.string lv) with
    | (tbl, none) =>
      Except.ok
        { levels := some tbl, CoveragePC := covMerged,
          TestCommand := other.TestCommand, OutputFile := other.OutputFile,
          ConfigFile := c.ConfigFile, Template := other.Template,
          DumpTemplate := other.DumpTemplate, DumpConfig := other.DumpConfig,
          Quiet := other.Quiet, AutoClean := other.AutoClean }
    | (_, some e) => Except.error e

/-- Threshold token as `Levels.Set` interprets it: the empty (trimmed)
token denotes 0, anything else goes through `strconv.ParseFloat`. -/
def parseLevel? (tok : List Char) : Option ℚ :=
  if tok = [] then some 0 else parseFloat? tok

/-- One comma segment that `Levels.Set` accepts: empty after trimming
(skipped), or a pair with exactly one interpretation — a threshold token
that is empty or numeric, and a valid color. -/
def segOK (part : List Char) : Bool :=
  let p := trimSpace part
  if p = [] then true
  else
    match splitEq2 p with
    | none => false
    | some kv => (parseLevel? (trimSpace kv.1)).isSome && isValidHexColor (trimSpace kv.2)

/-- Color of the last segment among `parts` whose threshold token denotes
`v` (the rightmost such pair wins), ignoring segments that are not pairs. -/
def lastColorFor (v : ℚ) : List (List Char) → Option (List Char)
  | [] => none
  | part :: rest =>
    match lastColorFor v rest with
    | some c => some c
    | none =>
      match splitEq2 (trimSpace part) with
      | some kv =>
        if parseLevel? (trimSpace kv.1) = some v then some (trimSpace kv.2) else none
      | none => none

/-- Projection of a configuration onto everything except the coverage
pointer, used to state that the merge treats that field independently. -/
def config.sansCov (c : config) :
    Option Levels × List Char × List Char × List Char × List Char × Bool × Bool × Bool × Bool :=
  (c.levels, c.TestCommand, c.OutputFile, c.ConfigFile, c.Template,
    c.DumpTemplate, c.DumpConfig, c.Quiet, c.AutoClean)

theorem splitEq2_eq_none {l : List Char} : splitEq2 l = none ↔ '=' ∉ l := by
  induction l with
  | nil => simp [splitEq2]
  | cons c t ih =>
    by_cases hc : c = '='
    · subst hc
      simp [splitEq2]
    · simp [splitEq2, hc, Option.map_eq_none', ih, Ne.symm hc]

theorem splitEq2_eq_some {l : List Char} {a b : List Char}
    (h : splitEq2 l = some (a, b)) : l = a ++ '=' :: b ∧ '=' ∉ a := by
  induction l generalizing a b with
  | nil => simp [splitEq2] at h
  | cons c t ih =>
    by_cases hc : c = '='
    · subst hc
      simp only [splitEq2, if_pos rfl, Option.some.injEq, Prod.mk.injEq] at h
      obtain ⟨rfl, rfl⟩ := h
      simp
    · simp only [splitEq2, if_neg hc, Option.map_eq_some'] at h
      obtain ⟨⟨a', b'⟩, hsp, heq⟩ := h
      simp only [Prod.mk.injEq] at heq
      obtain ⟨rfl, rfl⟩ := heq
      obtain ⟨rfl, hmem⟩ := ih hsp
      refine ⟨by simp, ?_⟩
      simp [List.mem_cons, Ne.symm hc, hmem]

theorem mem_dropWhile_of_mem {c : Char} {p : Char → Bool} {l : List Char}
    (hm : c ∈ l) (hp : p c = false) : c ∈ l.dropWhile p := by
  induction l with
  | nil => simp at hm
  | cons x t ih =>
    by_cases hx : p x = true
    · rw [List.dropWhile_cons_of_pos hx]
      rcases List.mem_cons.mp hm with rfl | hm'
      · rw [hp] at hx
        cases hx
      · exact ih hm'
    · rw [List.dropWhile_cons_of_neg hx]
      exact hm

theorem mem_trimSpace_of_mem {c : Char} {l : List Char}
    (hm : c ∈ l) (hp : isGoSpace c = false) : c ∈ trimSpace l := by
  unfold trimSpace
  rw [List.mem_reverse]
  refine mem_dropWhile_of_mem ?_ hp
  rw [List.mem_reverse]
  exact mem_dropWhile_of_mem hm hp

theorem isValidHexColor_iff {color : List Char} :
    isValidHexColor color = true ↔
      ∃ rest, color = '#' :: rest ∧ (rest.length = 3 ∨ rest.length = 6) ∧
        ∀ c ∈ rest, isHexDigitChar c = true := by
  cases color with
  | nil => simp [isValidHexColor]
  | cons c rest =>
    by_cases hc : c = '#'
    · subst hc
      by_cases hl : rest.length = 3 ∨ rest.length = 6
      · simp [isValidHexColor, hl, List.all_eq_true]
      · simp only [isValidHexColor, if_pos rfl, if_neg hl]
        constructor
        · intro h
          cases h
        · rintro ⟨rest', heq, hl', _⟩
          cases heq
          exact absurd hl' hl
    · simp only [isValidHexColor, if_neg hc]
      constructor
      · intro h
        cases h
      · rintro ⟨rest', heq, _, _⟩
        cases heq
        exact absurd rfl hc

theorem isValidHexColor_false_of_mem_eq {color : List Char}
    (hm : '=' ∈ color) : isValidHexColor color = false := by
  rw [Bool.eq_false_iff]
  intro hv
  obtain ⟨rest, rfl, _, hall⟩ := isValidHexColor_iff.mp hv
  rcases List.mem_cons.mp hm with h | h
  · cases h
  · have := hall _ h
    simp [isHexDigitChar] at this

theorem setGo_cons (part : List Char) (rest : List (List Char)) (acc : Levels) :
    setGo (part :: rest) acc =
      (if trimSpace part = [] then setGo rest acc
       else
         match splitEq2 (trimSpace part) with
         | none => (acc, some (SetErr.errInvalidLevelFormat (trimSpace part)))
         | some kv =>
           match parseLevel? (trimSpace kv.1) with
           | none => (acc, some (SetErr.errInvalidLevelNumber (trimSpace kv.1)))
           | some level =>
             if isValidHexColor (trimSpace kv.2) then
               setGo rest (insertLevel level (trimSpace kv.2) acc)
             else (acc, some (SetErr.errInvalidHexColor (trimSpace kv.2)))) := rfl

theorem setGo_cons_skip {part : List Char} (rest : List (List Char)) (acc : Levels)
    (h : trimSpace part = []) : setGo (part :: rest) acc = setGo rest acc := by
  rw [setGo_cons, if_pos h]

theorem setGo_cons_format {part : List Char} (rest : List (List Char)) (acc : Levels)
    (h : trimSpace part ≠ []) (hsp : splitEq2 (trimSpace part) = none) :
    setGo (part :: rest) acc = (acc, some (SetErr.errInvalidLevelFormat (trimSpace part))) := by
  rw [setGo_cons, if_neg h, hsp]

theorem setGo_cons_number {part : List Char} {kv : List Char × List Char}
    (rest : List (List Char)) (acc : Levels)
    (hsp : splitEq2 (trimSpace part) = some kv)
    (hnum : parseLevel? (trimSpace kv.1) = none) :
    setGo (part :: rest) acc = (acc, some (SetErr.errInvalidLevelNumber (trimSpace kv.1))) := by
  have h : trimSpace part ≠ [] := by
    intro he
    rw [he] at hsp
    simp [splitEq2] at hsp
  rw [setGo_cons, if_neg h, hsp]
  simp [hnum]

theorem setGo_cons_color {part : List Char} {kv : List Char × List Char} {level : ℚ}
    (rest : List (List Char)) (acc : Levels)
    (hsp : splitEq2 (trimSpace part) = some kv)
    (hnum : parseLevel? (trimSpace kv.1) = some level)
    (hcol : isValidHexColor (trimSpace kv.2) = false) :
    setGo (part :: rest) acc = (acc, some (SetErr.errInvalidHexColor (trimSpace kv.2))) := by
  have h : trimSpace part ≠ [] := by
    intro he
    rw [he] at hsp
    simp [splitEq2] at hsp
  rw [setGo_cons, if_neg h, hsp]
  simp [hnum, hcol]

theorem setGo_cons_ok {part : List Char} {kv : List Char × List Char} {level : ℚ}
    (rest : List (List Char)) (acc : Levels)
    (hsp : splitEq2 (trimSpace part) = some kv)
    (hnum : parseLevel? (trimSpace kv.1) = some level)
    (hcol : isValidHexColor (trimSpace kv.2) = true) :
    setGo (part :: rest) acc = setGo rest (insertLevel level (trimSpace kv.2) acc) := by
  have h : trimSpace part ≠ [] := by
    intro he
    rw [he] at hsp
    simp [splitEq2] at hsp
  rw [setGo_cons, if_neg h, hsp]
  simp [hnum, hcol]

theorem setGo_append (xs ys : List (List Char)) (acc : Levels) :
    setGo (xs ++ ys) acc =
      match setGo xs acc with
      | (a, none) => setGo ys a
      | (a, some e) => (a, some e) := by
  induction xs generalizing acc with
  | nil => simp [setGo]
  | cons part xs ih =>
    by_cases hp : trimSpace part = []
    · rw [List.cons_append, setGo_cons_skip _ _ hp, setGo_cons_skip _ _ hp, ih]
    · cases hsp : splitEq2 (trimSpace part) with
      | none =>
        rw [List.cons_append, setGo_cons_format _ _ hp hsp, setGo_cons_format _ _ hp hsp]
      | some kv =>
        cases hn : parseLevel? (trimSpace kv.1) with
        | none =>
          rw [List.cons_append, setGo_cons_number _ _ hsp hn, setGo_cons_number _ _ hsp hn]
        | some level =>
          by_cases hcol : isValidHexColor (trimSpace kv.2) = true
          · rw [List.cons_append, setGo_cons_ok _ _ hsp hn hcol,
              setGo_cons_ok _ _ hsp hn hcol, ih]
          · have hcol' : isValidHexColor (trimSpace kv.2) = false := by
              simpa using hcol
            rw [List.cons_append, setGo_cons_color _ _ hsp hn hcol',
              setGo_cons_color _ _ hsp hn hcol']

theorem setGo_error_split {parts : List (List Char)} {acc tbl : Levels} {e : SetErr}
    (h : setGo parts acc = (tbl, some e)) :
    ∃ pre part post, parts = pre ++ part :: post ∧ setGo pre acc = (tbl, none) ∧
      (setGo [part] tbl).2 = some e := by
  induction parts generalizing acc with
  | nil =>
    simp [setGo] at h
  | cons part rest ih =>
    by_cases hp : trimSpace part = []
    · rw [setGo_cons_skip _ _ hp] at h
      obtain ⟨pre, part', post, rfl, hpre, herr⟩ := ih h
      exact ⟨part :: pre, part', post, rfl, by rw [setGo_cons_skip _ _ hp]; exact hpre, herr⟩
    · cases hsp : splitEq2 (trimSpace part) with
      | none =>
        rw [setGo_cons_format _ _ hp hsp] at h
        simp only [Prod.mk.injEq, Option.some.injEq] at h
        obtain ⟨rfl, rfl⟩ := h
        refine ⟨[], part, rest, rfl, rfl, ?_⟩
        rw [setGo_cons_format _ _ hp hsp]
      | some kv =>
        cases hn : parseLevel? (trimSpace kv.1) with
        | none =>
          rw [setGo_cons_number _ _ hsp hn] at h
          simp only [Prod.mk.injEq, Option.some.injEq] at h
          obtain ⟨rfl, rfl⟩ := h
          refine ⟨[], part, rest, rfl, rfl, ?_⟩
          rw [setGo_cons_number _ _ hsp hn]
        | some level =>
          by_cases hcol : isValidHexColor (trimSpace kv.2) = true
          · rw [setGo_cons_ok _ _ hsp hn hcol] at h
            obtain ⟨pre, part', post, rfl, hpre, herr⟩ := ih h
            exact ⟨part :: pre, part', post, rfl,
              by rw [setGo_cons_ok _ _ hsp hn hcol]; exact hpre, herr⟩
          · have hcol' : isValidHexColor (trimSpace kv.2) = false := by
              simpa using hcol
            rw [setGo_cons_color _ _ hsp hn hcol'] at h
            simp only [Prod.mk.injEq, Option.some.injEq] at h
            obtain ⟨rfl, rfl⟩ := h
            refine ⟨[], part, rest, rfl, rfl, ?_⟩
            rw [setGo_cons_color _ _ hsp hn hcol']

theorem setGo_all_empty {parts : List (List Char)}
    (h : ∀ part ∈ parts, trimSpace part = []) (acc : Levels) :
    setGo parts acc = (acc, none) := by
  induction parts with
  | nil => rfl
  | cons part rest ih =>
    rw [setGo_cons_skip _ _ (h part (List.mem_cons_self _ _))]
    exact ih (fun q hq => h q (List.mem_cons_of_mem _ hq))

theorem lookupLevel_insertLevel_self (k : ℚ) (v : List Char) (l : Levels) :
    lookupLevel k (insertLevel k v l) = some v := by
  induction l with
  | nil => simp [insertLevel, lookupLevel]
  | cons p t ih =>
    by_cases hp : p.1 = k
    · simp [insertLevel, hp, lookupLevel]
    · simp [insertLevel, hp, lookupLevel, ih]

theorem lookupLevel_insertLevel_ne {k' k : ℚ} (hne : k' ≠ k) (v : List Char) (l : Levels) :
    lookupLevel k' (insertLevel k v l) = lookupLevel k' l := by
  induction l with
  | nil => simp [insertLevel, lookupLevel, Ne.symm hne]
  | cons p t ih =>
    by_cases hp : p.1 = k
    · subst hp
      simp [insertLevel, lookupLevel, Ne.symm hne, ih]
    · simp [insertLevel, hp, lookupLevel, ih]

theorem setGo_segOK_general {parts : List (List Char)}
    (h : ∀ part ∈ parts, segOK part = true) (acc : Levels) :
    (setGo parts acc).2 = none ∧
      ∀ v : ℚ, lookupLevel v (setGo parts acc).1 =
        (match lastColorFor v parts with
         | some c => some c
         | none => lookupLevel v acc) := by
  induction parts generalizing acc with
  | nil => exact ⟨rfl, fun _ => rfl⟩
  | cons part rest ih =>
    have hseg := h part (List.mem_cons_self _ _)
    have hrest : ∀ q ∈ rest, segOK q = true := fun q hq => h q (List.mem_cons_of_mem _ hq)
    by_cases hp : trimSpace part = []
    · rw [setGo_cons_skip _ _ hp]
      have hsplit : splitEq2 (trimSpace part) = none := by
        rw [hp]
        rfl
      obtain ⟨h1, h2⟩ := ih hrest acc
      refine ⟨h1, fun v => ?_⟩
      rw [h2 v]
      simp only [lastColorFor, hsplit]
      cases lastColorFor v rest <;> rfl
    · simp only [segOK, if_neg hp] at hseg
      cases hsp : splitEq2 (trimSpace part) with
      | none =>
        rw [hsp] at hseg
        cases hseg
      | some kv =>
        rw [hsp] at hseg
        obtain ⟨hps, hcol⟩ := Bool.and_eq_true_iff.mp hseg
        obtain ⟨level, hn⟩ := Option.isSome_iff_exists.mp hps
        rw [setGo_cons_ok _ _ hsp hn hcol]
        obtain ⟨g1, g2⟩ := ih hrest (insertLevel level (trimSpace kv.2) acc)
        refine ⟨g1, fun v => ?_⟩
        rw [g2 v]
        simp only [lastColorFor, hsp]
        cases hlast : lastColorFor v rest with
        | some c => rfl
        | none =>
          by_cases hv : parseLevel? (trimSpace kv.1) = some v
          · have hlv : level = v := by
              rw [hn] at hv
              exact Option.some.inj hv
            subst hlv
            simp [hv, lookupLevel_insertLevel_self]
          · have hlv : v ≠ level := by
              intro he
              subst he
              exact hv hn
            simp [hv, lookupLevel_insertLevel_ne hlv]

theorem setGo_multi_eq {part : List Char} (rest : List (List Char)) (acc : Levels)
    (h2 : 2 ≤ List.count '=' (trimSpace part)) :
    ∃ tok, setGo (part :: rest) acc = (acc, some (SetErr.errInvalidLevelNumber tok)) ∨
      setGo (part :: rest) acc = (acc, some (SetErr.errInvalidHexColor tok)) := by
  cases hsp : splitEq2 (trimSpace part) with
  | none =>
    have hnm : '=' ∉ trimSpace part := splitEq2_eq_none.mp hsp
    have hm : '=' ∈ trimSpace part := List.count_pos_iff.mp (by omega)
    exact absurd hm hnm
  | some kv =>
    obtain ⟨heq, hnmem⟩ := splitEq2_eq_some hsp
    have hk1 : List.count '=' kv.1 = 0 := List.count_eq_zero.mpr hnmem
    have hcnt : List.count '=' (trimSpace part) =
        List.count '=' kv.1 + (List.count '=' kv.2 + 1) := by
      rw [heq, List.count_append, List.count_cons_self]
    have hv2 : '=' ∈ kv.2 := List.count_pos_iff.mp (by omega)
    have hvt : '=' ∈ trimSpace kv.2 := mem_trimSpace_of_mem hv2 (by decide)
    have hcol : isValidHexColor (trimSpace kv.2) = false :=
      isValidHexColor_false_of_mem_eq hvt
    cases hn : parseLevel? (trimSpace kv.1) with
    | none => exact ⟨trimSpace kv.1, Or.inl (setGo_cons_number _ _ hsp hn)⟩
    | some level => exact ⟨trimSpace kv.2, Or.inr (setGo_cons_color _ _ hsp hn hcol)⟩

theorem find?_sorted_desc {c : ℚ} {s : Levels}
    (hs : List.Sorted keyGe s) (hnd : (s.map Prod.fst).Nodup)
    {p : ℚ × List Char} (hmem : p ∈ s) (hqual : p.1 ≤ c)
    (hmax : ∀ q ∈ s, q.1 ≤ c → q.1 ≤ p.1) :
    s.find? (fun q => decide (q.1 ≤ c)) = some p := by
  induction s with
  | nil => cases hmem
  | cons hd t ih =>
    rw [List.sorted_cons] at hs
    obtain ⟨hhead, hst⟩ := hs
    simp only [List.map_cons, List.nodup_cons] at hnd
    by_cases hh : hd.1 ≤ c
    · rw [List.find?_cons_of_pos _ (by simpa using hh)]
      rcases List.mem_cons.mp hmem with rfl | hmt
      · rfl
      · exfalso
        have h1 : hd.1 ≤ p.1 := hmax hd (List.mem_cons_self _ _) hh
        have h2 : p.1 ≤ hd.1 := hhead p hmt
        have heq : p.1 = hd.1 := le_antisymm h2 h1
        exact hnd.1 (heq ▸ List.mem_map_of_mem Prod.fst hmt)
    · rw [List.find?_cons_of_neg _ (by simpa using hh)]
      have hpt : p ∈ t := by
        rcases List.mem_cons.mp hmem with rfl | hmt
        · exact absurd hqual hh
        · exact hmt
      exact ih hst hnd.2 hpt (fun q hq hqc => hmax q (List.mem_cons_of_mem _ hq) hqc)

theorem roundHalfEven_nearest (q : ℚ) : |(roundHalfEven q : ℚ) - q| ≤ 1 / 2 := by
  have hd0 : (0 : ℤ) < (q.den : ℤ) := by exact_mod_cast q.den_pos
  simp only [roundHalfEven]
  set n : ℤ := q.num with hn
  set d : ℤ := (q.den : ℤ) with hd
  set f : ℤ := n / d with hf
  set m : ℤ := n % d with hm
  have hdQ : (0 : ℚ) < ((d : ℤ) : ℚ) := by exact_mod_cast hd0
  have h0 : 0 ≤ m := Int.emod_nonneg n (ne_of_gt hd0)
  have h1 : m < d := Int.emod_lt_of_pos n hd0
  have hnmd : n = m + d * f := (Int.emod_add_ediv n d).symm
  have hq : q = (n : ℚ) / (d : ℚ) := by
    rw [hn, hd]
    push_cast
    exact (Rat.num_div_den q).symm
  have key : q = (m : ℚ) / (d : ℚ) + (f : ℚ) := by
    rw [hq]
    rw [show ((n : ℤ) : ℚ) = ((m : ℤ) : ℚ) + ((d : ℤ) : ℚ) * ((f : ℤ) : ℚ) by
      exact_mod_cast congrArg (fun z : ℤ => (z : ℚ)) hnmd]
    field_simp
    ring
  have hsub : 2 * (n - f * d) = 2 * m := by
    rw [hnmd]
    ring
  rw [hsub]
  have hmd0 : (0 : ℚ) ≤ (m : ℚ) / (d : ℚ) :=
    div_nonneg (by exact_mod_cast h0) hdQ.le
  have hmd1 : (m : ℚ) / (d : ℚ) < 1 := by
    rw [div_lt_one hdQ]
    exact_mod_cast h1
  split_ifs with hc1 hc2 hc3
  · have hB : (m : ℚ) / (d : ℚ) ≤ 1 / 2 := by
      rw [div_le_iff₀ hdQ]
      have : (2 * m : ℚ) ≤ (d : ℚ) := by exact_mod_cast hc1.le
      linarith
    have hsb : (f : ℚ) - q = -((m : ℚ) / (d : ℚ)) := by
      rw [key]
      ring
    rw [hsb, abs_neg, abs_of_nonneg hmd0]
    exact hB
  · have hD : 1 / 2 ≤ (m : ℚ) / (d : ℚ) := by
      rw [le_div_iff₀ hdQ]
      have : (d : ℚ) ≤ (2 * m : ℚ) := by exact_mod_cast hc2.le
      linarith
    have hsb : ((f + 1 : ℤ) : ℚ) - q = 1 - (m : ℚ) / (d : ℚ) := by
      push_cast
      rw [key]
      ring
    rw [hsb, abs_of_nonneg (by linarith)]
    linarith
  · have heq2 : (2 * m : ℤ) = d := le_antisymm (not_lt.mp hc2) (not_lt.mp hc1)
    have hE : (m : ℚ) / (d : ℚ) = 1 / 2 := by
      rw [div_eq_iff hdQ.ne']
      have h2c : ((2 * m : ℤ) : ℚ) = ((d : ℤ) : ℚ) := by exact_mod_cast heq2
      push_cast at h2c
      linarith
    have hsb : (f : ℚ) - q = -(1 / 2) := by
      rw [key, hE]
      ring
    rw [hsb, abs_neg, abs_of_nonneg (by norm_num)]
  · have heq2 : (2 * m : ℤ) = d := le_antisymm (not_lt.mp hc2) (not_lt.mp hc1)
    have hE : (m : ℚ) / (d : ℚ) = 1 / 2 := by
      rw [div_eq_iff hdQ.ne']
      have h2c : ((2 * m : ℤ) : ℚ) = ((d : ℤ) : ℚ) := by exact_mod_cast heq2
      push_cast at h2c
      linarith
    have hsb : ((f + 1 : ℤ) : ℚ) - q = 1 / 2 := by
      push_cast
      rw [key, hE]
      ring
    rw [hsb, abs_of_nonneg (by norm_num)]

theorem hexVal?_isSome {c : Char} (h : isHexDigitChar c = true) : (hexVal? c).isSome := by
  simp only [isHexDigitChar, Bool.or_eq_true, decide_eq_true_eq] at h
  unfold hexVal?
  split_ifs <;> first | rfl | tauto

theorem hexRunAux_isSome {l : List Char} (h : ∀ c ∈ l, isHexDigitChar c = true) (acc : ℕ) :
    (hexRunAux l acc).isSome := by
  induction l generalizing acc with
  | nil => rfl
  | cons c t ih =>
    unfold hexRunAux
    obtain ⟨d, hd⟩ :=
      Option.isSome_iff_exists.mp (hexVal?_isSome (h c (List.mem_cons_self _ _)))
    rw [hd]
    exact ih (fun x hx => h x (List.mem_cons_of_mem _ hx)) _

theorem parseInt16?_isSome {l : List Char} (hne : l ≠ [])
    (h : ∀ c ∈ l, isHexDigitChar c = true) : (parseInt16? l).isSome := by
  cases l with
  | nil => cases hne rfl
  | cons c t =>
    have hc := h c (List.mem_cons_self _ _)
    have hcp : c ≠ '+' := by
      intro he
      subst he
      exact absurd hc (by decide)
    have hcm : c ≠ '-' := by
      intro he
      subst he
      exact absurd hc (by decide)
    unfold parseInt16?
    simp only [if_neg hcp, if_neg hcm]
    obtain ⟨v, hv⟩ := Option.isSome_iff_exists.mp (hexRunAux_isSome h 0)
    rw [hv]
    rfl

theorem config.merge_none {c other : config} (h : other.levels = none) :
    config.merge c other = Except.ok
      { levels := c.levels,
        CoveragePC :=
          match other.CoveragePC with
          | none => c.CoveragePC
          | some w => some w,
        TestCommand := other.TestCommand, OutputFile := other.OutputFile,
        ConfigFile := c.ConfigFile, Template := other.Template,
        DumpTemplate := other.DumpTemplate, DumpConfig := other.DumpConfig,
        Quiet := other.Quiet, AutoClean := other.AutoClean } := by
  unfold config.merge
  rw [h]

theorem config.merge_some_ok {c other : config} {lv tbl : Levels}
    (h : other.levels = some lv) (hs : Levels.set (Levels.string lv) = (tbl, none)) :
    config.merge c other = Except.ok
      { levels := some tbl,
        CoveragePC :=
          match other.CoveragePC with
          | none => c.CoveragePC
          | some w => some w,
        TestCommand := other.TestCommand, OutputFile := other.OutputFile,
        ConfigFile := c.ConfigFile, Template := other.Template,
        DumpTemplate := other.DumpTemplate, DumpConfig := other.DumpConfig,
        Quiet := other.Quiet, AutoClean := other.AutoClean } := by
  unfold config.merge
  rw [h]
  simp only [hs]

theorem config.merge_some_err {c other : config} {lv tbl : Levels} {e : SetErr}
    (h : other.levels = some lv) (hs : Levels.set (Levels.string lv) = (tbl, some e)) :
    config.merge c other = Except.error e := by
  unfold config.merge
  rw [h]
  simp only [hs]

/-- C7: for every string `t`, `isValidHexColor t` is `true` if and only if
`t` starts with `#` and the remainder is exactly 3 or exactly 6
characters, each drawn from `[0-9a-fA-F]`; for every other string it is
`false` (being a total Boolean function, it never raises). -/
theorem claim_isValidHexColor_spec (t : List Char) :
    isValidHexColor t = true ↔
      ∃ rest, t = '#' :: rest ∧ (rest.length = 3 ∨ rest.length = 6) ∧
        ∀ c ∈ rest,
          (('0' ≤ c ∧ c ≤ '9') ∨ ('a' ≤ c ∧ c ≤ 'f') ∨ ('A' ≤ c ∧ c ≤ 'F')) := by
  rw [isValidHexColor_iff]
  constructor
  · rintro ⟨rest, rfl, hl, hall⟩
    refine ⟨rest, rfl, hl, fun c hc => ?_⟩
    have h := hall c hc
    simpa [isHexDigitChar, Bool.or_eq_true, decide_eq_true_eq, or_assoc] using h
  · rintro ⟨rest, rfl, hl, hall⟩
    refine ⟨rest, rfl, hl, fun c hc => ?_⟩
    have h := hall c hc
    simp only [isHexDigitChar, Bool.or_eq_true, decide_eq_true_eq, or_assoc]
    exact h

/-- C3: `GetColorForCoverage` returns the color mapped to the numerically
largest threshold `t ≤ c` (the boundary `t = c` inclusive), and the fixed
fallback `#ff0001` when no threshold is `≤ c`, in particular on the empty
table. -/
theorem claim_getColorForCoverage_spec (l : Levels) (c : ℚ)
    (hnd : (l.map Prod.fst).Nodup) :
    ((∀ p ∈ l, c < p.1) → Levels.GetColorForCoverage l c = fallbackColor) ∧
    (∀ p ∈ l, p.1 ≤ c → (∀ q ∈ l, q.1 ≤ c → q.1 ≤ p.1) →
      Levels.GetColorForCoverage l c = p.2) := by
  have hperm := List.perm_insertionSort keyGe l
  have hsorted := List.sorted_insertionSort keyGe l
  constructor
  · intro hbelow
    have hnone : (List.insertionSort keyGe l).find? (fun p => decide (p.1 ≤ c)) = none := by
      rw [List.find?_eq_none]
      intro x hx
      simp only [decide_eq_true_eq]
      exact not_le.mpr (hbelow x (hperm.mem_iff.mp hx))
    unfold Levels.GetColorForCoverage
    rw [hnone]
  · intro p hp hple hmax
    have hnd' : ((List.insertionSort keyGe l).map Prod.fst).Nodup :=
      (List.Perm.nodup_iff (hperm.map Prod.fst)).mpr hnd
    have hmem' : p ∈ List.insertionSort keyGe l := hperm.mem_iff.mpr hp
    have hmax' : ∀ q ∈ List.insertionSort keyGe l, q.1 ≤ c → q.1 ≤ p.1 :=
      fun q hq => hmax q (hperm.mem_iff.mp hq)
    unfold Levels.GetColorForCoverage
    rw [find?_sorted_desc hsorted hnd' hmem' hple hmax']

theorem claim_getColorForCoverage_spec_witness :
    (([((90 : ℚ), ['g']), ((70 : ℚ), ['y'])] : Levels).map Prod.fst).Nodup ∧
      Levels.GetColorForCoverage [((90 : ℚ), ['g']), ((70 : ℚ), ['y'])] 95 = ['g'] ∧
      Levels.GetColorForCoverage [((90 : ℚ), ['g']), ((70 : ℚ), ['y'])] 5 = fallbackColor :=
  ⟨by decide,
    (claim_getColorForCoverage_spec [((90 : ℚ), ['g']), ((70 : ℚ), ['y'])] 95 (by decide)).2
      ((90 : ℚ), ['g']) (by decide) (by decide) (by decide),
    (claim_getColorForCoverage_spec [((90 : ℚ), ['g']), ((70 : ℚ), ['y'])] 5 (by decide)).1
      (by decide)⟩

/-- C5: `Levels.String` renders the table as comma separated
`threshold=color` pairs sorted by ascending threshold, with every
threshold printed with zero decimal places, i.e. rounded to a nearest
integer (ties to even, which is Go's `%.0f`); the claim's example `85.5`
serializes as `86`. -/
theorem claim_levelsString_spec :
    (∀ l : Levels, ∃ s, List.Perm s l ∧ List.Sorted keyLe s ∧
        Levels.string l = joinComma (s.map (fun p => fmtF0 p.1 ++ '=' :: p.2))) ∧
    (∀ q : ℚ, |(roundHalfEven q : ℚ) - q| ≤ 1 / 2) ∧
    Levels.string [(mkRat 171 2, ['#', '0', 'f', '0'])] = ['8', '6', '=', '#', '0', 'f', '0'] :=
  ⟨fun l => ⟨List.insertionSort keyLe l, List.perm_insertionSort keyLe l,
      List.sorted_insertionSort keyLe l, rfl⟩,
    roundHalfEven_nearest, by decide⟩

/-- C9: on every input that is a valid hex color, `getOptimalTextColor` is
total: the three channel slices are in bounds, each channel parse
succeeds, the function returns a value, and that value is `#ffffff` or
`#000000` — for every luminance decision function. -/
theorem claim_getOptimalTextColor_total (lum : ℤ → ℤ → ℤ → Bool) (s : List Char)
    (hv : isValidHexColor s = true) :
    ∃ rs gs bs out,
      goSlice (expandHex (trimPrefixHash s)) 0 2 = some rs ∧
      goSlice (expandHex (trimPrefixHash s)) 2 4 = some gs ∧
      goSlice (expandHex (trimPrefixHash s)) 4 6 = some bs ∧
      (parseInt16? rs).isSome ∧ (parseInt16? gs).isSome ∧ (parseInt16? bs).isSome ∧
      getOptimalTextColor lum s = some out ∧ (out = whiteText ∨ out = blackText) := by
  obtain ⟨rest, rfl, hlen, hall⟩ := isValidHexColor_iff.mp hv
  rcases hlen with h3 | h6
  · obtain ⟨a, b, c, rfl⟩ := List.length_eq_three.mp h3
    have ha := hall a (by simp)
    have hb := hall b (by simp)
    have hc := hall c (by simp)
    refine ⟨[a, a], [b, b], [c, c], _, rfl, rfl, rfl, ?_, ?_, ?_, rfl, ?_⟩
    · refine parseInt16?_isSome (by simp) fun x hx => ?_
      simp only [List.mem_cons, List.not_mem_nil, or_false] at hx
      rcases hx with rfl | rfl <;> exact ha
    · refine parseInt16?_isSome (by simp) fun x hx => ?_
      simp only [List.mem_cons, List.not_mem_nil, or_false] at hx
      rcases hx with rfl | rfl <;> exact hb
    · refine parseInt16?_isSome (by simp) fun x hx => ?_
      simp only [List.mem_cons, List.not_mem_nil, or_false] at hx
      rcases hx with rfl | rfl <;> exact hc
    · split_ifs <;> simp [whiteText, blackText]
  · obtain ⟨a, b, c, d, e, f, rfl⟩ :
        ∃ a b c d e f, rest = [a, b, c, d, e, f] := by
      rcases rest with _ | ⟨a, _ | ⟨b, _ | ⟨c, _ | ⟨d, _ | ⟨e, _ | ⟨f, _ | _⟩⟩⟩⟩⟩⟩ <;>
        simp_all
    refine ⟨[a, b], [c, d], [e, f], _, rfl, rfl, rfl, ?_, ?_, ?_, rfl, ?_⟩
    · refine parseInt16?_isSome (by simp) fun x hx => ?_
      simp only [List.mem_cons, List.not_mem_nil, or_false] at hx
      rcases hx with rfl | rfl
      · exact hall x (by simp)
      · exact hall x (by simp)
    · refine parseInt16?_isSome (by simp) fun x hx => ?_
      simp only [List.mem_cons, List.not_mem_nil, or_false] at hx
      rcases hx with rfl | rfl
      · exact hall x (by simp)
      · exact hall x (by simp)
    · refine parseInt16?_isSome (by simp) fun x hx => ?_
      simp only [List.mem_cons, List.not_mem_nil, or_false] at hx
      rcases hx with rfl | rfl
      · exact hall x (by simp)
      · exact hall x (by simp)
    · split_ifs <;> simp [whiteText, blackText]

theorem claim_getOptimalTextColor_total_witness :
    isValidHexColor ['#', 'a', 'b', 'c'] = true ∧
      ∃ rs gs bs out,
        goSlice (expandHex (trimPrefixHash ['#', 'a', 'b', 'c'])) 0 2 = some rs ∧
        goSlice (expandHex (trimPrefixHash ['#', 'a', 'b', 'c'])) 2 4 = some gs ∧
        goSlice (expandHex (trimPrefixHash ['#', 'a', 'b', 'c'])) 4 6 = some bs ∧
        (parseInt16? rs).isSome ∧ (parseInt16? gs).isSome ∧ (parseInt16? bs).isSome ∧
        getOptimalTextColor (fun _ _ _ => false) ['#', 'a', 'b', 'c'] = some out ∧
        (out = whiteText ∨ out = blackText) :=
  ⟨by decide,
    claim_getOptimalTextColor_total (fun _ _ _ => false) ['#', 'a', 'b', 'c'] (by decide)⟩

/-- C8: parsing an input whose comma segments all trim to nothing (in
particular the empty input) succeeds with the empty table and no fallback
entry; an empty segment anywhere is skipped without effect; and a
well-formed pair with an empty threshold token stores threshold `0`. -/
theorem claim_levelsSet_empty_spec :
    (∀ value : List Char, (∀ part ∈ splitComma value, trimSpace part = []) →
      Levels.set value = ([], none)) ∧
    (∀ (pre post : List (List Char)) (part : List Char) (acc : Levels),
      trimSpace part = [] →
      setGo (pre ++ part :: post) acc = setGo (pre ++ post) acc) ∧
    (∀ (part : List Char) (kv : List Char × List Char) (rest : List (List Char))
        (acc : Levels),
      splitEq2 (trimSpace part) = some kv → trimSpace kv.1 = [] →
      isValidHexColor (trimSpace kv.2) = true →
      setGo (part :: rest) acc = setGo rest (insertLevel 0 (trimSpace kv.2) acc)) := by
  refine ⟨fun value h => setGo_all_empty h [], ?_, ?_⟩
  · intro pre post part acc hp
    rw [setGo_append, setGo_append]
    cases hpre : setGo pre acc with
    | mk a err =>
      cases err with
      | none => exact setGo_cons_skip _ _ hp
      | some e => rfl
  · intro part kv rest acc hsp hk hcol
    have hn : parseLevel? (trimSpace kv.1) = some 0 := by
      rw [hk]
      rfl
    exact setGo_cons_ok _ _ hsp hn hcol

theorem claim_levelsSet_empty_spec_witness :
    (∀ part ∈ splitComma [' ', ',', ' '], trimSpace part = []) ∧
      Levels.set [' ', ',', ' '] = ([], none) ∧
      trimSpace [' '] = [] ∧
      setGo ([['9', '0', '=', '#', '0', 'f', '0']] ++ [' '] :: [['7', '0', '=', '#', 'f', 'f', 'f']]) [] =
        setGo ([['9', '0', '=', '#', '0', 'f', '0']] ++ [['7', '0', '=', '#', 'f', 'f', 'f']]) [] ∧
      splitEq2 (trimSpace [' ', '=', '#', 'F', '0', '0']) = some ([], ['#', 'F', '0', '0']) ∧
      setGo [[' ', '=', '#', 'F', '0', '0']] [] = setGo [] (insertLevel 0 ['#', 'F', '0', '0'] []) :=
  ⟨by decide,
    claim_levelsSet_empty_spec.1 [' ', ',', ' '] (by decide),
    by decide,
    claim_levelsSet_empty_spec.2.1 [['9', '0', '=', '#', '0', 'f', '0']]
      [['7', '0', '=', '#', 'f', 'f', 'f']] [' '] [] (by decide),
    by decide,
    claim_levelsSet_empty_spec.2.2 [' ', '=', '#', 'F', '0', '0'] ([], ['#', 'F', '0', '0'])
      [] [] (by decide) (by decide) (by decide)⟩

/-- C10: on an input all of whose segments are skippable or well formed,
`Levels.Set` succeeds — duplicate thresholds raise no uniqueness error —
and the resulting table maps a threshold to the color of the last
(rightmost) pair whose token denotes it. -/
theorem claim_levelsSet_duplicates_spec (value : List Char)
    (h : ∀ part ∈ splitComma value, segOK part = true) :
    (Levels.set value).2 = none ∧
      ∀ (v : ℚ) (c : List Char), lastColorFor v (splitComma value) = some c →
        lookupLevel v (Levels.set value).1 = some c := by
  obtain ⟨h1, h2⟩ := setGo_segOK_general h []
  refine ⟨h1, fun v c hc => ?_⟩
  have hx := h2 v
  rw [hc] at hx
  exact hx

theorem claim_levelsSet_duplicates_spec_witness :
    (∀ part ∈
        splitComma ['8', '0', '=', '#', '0', 'f', '0', ',',
          '8', '0', '.', '0', '=', '#', 'f', 'f', 'f'],
      segOK part = true) ∧
      lastColorFor 80
          (splitComma ['8', '0', '=', '#', '0', 'f', '0', ',',
            '8', '0', '.', '0', '=', '#', 'f', 'f', 'f']) = some ['#', 'f', 'f', 'f'] ∧
      (Levels.set ['8', '0', '=', '#', '0', 'f', '0', ',',
        '8', '0', '.', '0', '=', '#', 'f', 'f', 'f']).2 = none ∧
      lookupLevel 80
          (Levels.set ['8', '0', '=', '#', '0', 'f', '0', ',',
            '8', '0', '.', '0', '=', '#', 'f', 'f', 'f']).1 = some ['#', 'f', 'f', 'f'] :=
  ⟨by decide, by decide,
    (claim_levelsSet_duplicates_spec _ (by decide)).1,
    (claim_levelsSet_duplicates_spec _ (by decide)).2 80 ['#', 'f', 'f', 'f'] (by decide)⟩

/-- C2: the coverage-override pointer merges sparsely in `config.merge`: a
`nil` override leaves the base's value, a set override wins; and neither
side's coverage pointer influences any other field of the merge result
(or whether it errors). -/
theorem claim_merge_coveragePC_spec (c other : config) :
    (other.CoveragePC = none → ∀ r, config.merge c other = Except.ok r →
      r.CoveragePC = c.CoveragePC) ∧
    (∀ w, other.CoveragePC = some w → ∀ r, config.merge c other = Except.ok r →
      r.CoveragePC = some w) ∧
    (∀ p p', (config.merge c { other with CoveragePC := p }).map config.sansCov =
      (config.merge c { other with CoveragePC := p' }).map config.sansCov) ∧
    (∀ p p', (config.merge { c with CoveragePC := p } other).map config.sansCov =
      (config.merge { c with CoveragePC := p' } other).map config.sansCov) := by
  cases hlv : other.levels with
  | none =>
    refine ⟨?_, ?_, ?_, ?_⟩
    · intro hcov r hr
      rw [config.merge_none hlv, Except.ok.injEq] at hr
      subst hr
      simp [hcov]
    · intro w hcov r hr
      rw [config.merge_none hlv, Except.ok.injEq] at hr
      subst hr
      simp [hcov]
    · intro p p'
      rfl
    · intro p p'
      rw [config.merge_none hlv, config.merge_none hlv]
      rfl
  | some lv =>
    cases hset : Levels.set (Levels.string lv) with
    | mk tbl err =>
      cases err with
      | none =>
        refine ⟨?_, ?_, ?_, ?_⟩
        · intro hcov r hr
          rw [config.merge_some_ok hlv hset, Except.ok.injEq] at hr
          subst hr
          simp [hcov]
        · intro w hcov r hr
          rw [config.merge_some_ok hlv hset, Except.ok.injEq] at hr
          subst hr
          simp [hcov]
        · intro p p'
          simp only [config.merge, hset]
          rfl
        · intro p p'
          rw [config.merge_some_ok hlv hset, config.merge_some_ok hlv hset]
          rfl
      | some e =>
        refine ⟨?_, ?_, ?_, ?_⟩
        · intro hcov r hr
          rw [config.merge_some_err hlv hset] at hr
          cases hr
        · intro w hcov r hr
          rw [config.merge_some_err hlv hset] at hr
          cases hr
        · intro p p'
          simp only [config.merge, hset]
        · intro p p'
          rw [config.merge_some_err hlv hset, config.merge_some_err hlv hset]

theorem claim_merge_coveragePC_spec_witness :
    (({ levels := none, CoveragePC := none, TestCommand := ['B'], OutputFile := [],
        ConfigFile := [], Template := [], DumpTemplate := false, DumpConfig := false,
        Quiet := false, AutoClean := false } : config).CoveragePC = none) ∧
    (∃ r, config.merge
        { levels := none, CoveragePC := some (mkRat 90 1), TestCommand := ['A'],
          OutputFile := ['x'], ConfigFile := [], Template := [], DumpTemplate := false,
          DumpConfig := false, Quiet := false, AutoClean := false }
        { levels := none, CoveragePC := none, TestCommand := ['B'], OutputFile := [],
          ConfigFile := [], Template := [], DumpTemplate := false, DumpConfig := false,
          Quiet := false, AutoClean := false } = Except.ok r ∧
      r.CoveragePC = some (mkRat 90 1)) ∧
    (∃ r, config.merge
        { levels := none, CoveragePC := some (mkRat 90 1), TestCommand := ['A'],
          OutputFile := ['x'], ConfigFile := [], Template := [], DumpTemplate := false,
          DumpConfig := false, Quiet := false, AutoClean := false }
        { levels := none, CoveragePC := some (mkRat 752 10), TestCommand := ['B'],
          OutputFile := [], ConfigFile := [], Template := [], DumpTemplate := false,
          DumpConfig := false, Quiet := false, AutoClean := false } = Except.ok r ∧
      r.CoveragePC = some (mkRat 752 10)) := by
  have h1 := claim_merge_coveragePC_spec
    { levels := none, CoveragePC := some (mkRat 90 1), TestCommand := ['A'],
      OutputFile := ['x'], ConfigFile := [], Template := [], DumpTemplate := false,
      DumpConfig := false, Quiet := false, AutoClean := false }
    { levels := none, CoveragePC := none, TestCommand := ['B'], OutputFile := [],
      ConfigFile := [], Template := [], DumpTemplate := false, DumpConfig := false,
      Quiet := false, AutoClean := false }
  have h2 := claim_merge_coveragePC_spec
    { levels := none, CoveragePC := some (mkRat 90 1), TestCommand := ['A'],
      OutputFile := ['x'], ConfigFile := [], Template := [], DumpTemplate := false,
      DumpConfig := false, Quiet := false, AutoClean := false }
    { levels := none, CoveragePC := some (mkRat 752 10), TestCommand := ['B'],
      OutputFile := [], ConfigFile := [], Template := [], DumpTemplate := false,
      DumpConfig := false, Quiet := false, AutoClean := false }
  exact ⟨rfl, ⟨_, rfl, h1.1 rfl _ rfl⟩, ⟨_, rfl, h2.2.1 (mkRat 752 10) rfl _ rfl⟩⟩

/-- C1 counterexample: merging a base whose threshold table is set with an
explicit-override layer that leaves the table unset (`nil`) keeps the
base's table — `levels` is tagged `omitzero`, so the unset table is
omitted from the marshalled override document and is not cleared, while
the unset output file of the same override document does come out empty. -/
theorem claim_merge_whole_doc_counterexample :
    ∃ r, config.merge
        { levels := some [((90 : ℚ), ['#', '0', '0', 'f', 'f', '0', '0'])],
          CoveragePC := none, TestCommand := ['A'], OutputFile := ['x'],
          ConfigFile := [], Template := [], DumpTemplate := false, DumpConfig := false,
          Quiet := false, AutoClean := false }
        { levels := none, CoveragePC := none, TestCommand := ['B'], OutputFile := [],
          ConfigFile := [], Template := [], DumpTemplate := false, DumpConfig := false,
          Quiet := false, AutoClean := false } = Except.ok r ∧
      r.levels = some [((90 : ℚ), ['#', '0', '0', 'f', 'f', '0', '0'])] ∧
      r.levels ≠ none ∧ r.levels ≠ some [] ∧
      r.TestCommand = ['B'] ∧ r.OutputFile = [] :=
  ⟨_, rfl, rfl, by simp, by simp, rfl, rfl⟩

/-- C1 amended: in `config.merge` the always-marshalled fields — test
command, output file, template and the four boolean flags — are
whole-document: the override's values (its zero values when unset) land in
the result unconditionally.  The threshold table does not take part: a
`nil` table is omitted from the override document (`omitzero`) and the
base's table survives, while a set table replaces the base's wholesale
with the reparse of its serialized form; the config-file path and the
coverage pointer are excluded from the document (`json:"-"`) — the former
always keeps the base's value, the latter is copied only when set. -/
theorem claim_merge_whole_doc_amended (c other : config) :
    (other.levels = none → config.merge c other = Except.ok
      { levels := c.levels,
        CoveragePC :=
          match other.CoveragePC with
          | none => c.CoveragePC
          | some w => some w,
        TestCommand := other.TestCommand, OutputFile := other.OutputFile,
        ConfigFile := c.ConfigFile, Template := other.Template,
        DumpTemplate := other.DumpTemplate, DumpConfig := other.DumpConfig,
        Quiet := other.Quiet, AutoClean := other.AutoClean }) ∧
    (∀ lv tbl, other.levels = some lv → Levels.set (Levels.string lv) = (tbl, none) →
      config.merge c other = Except.ok
        { levels := some tbl,
          CoveragePC :=
            match other.CoveragePC with
            | none => c.CoveragePC
            | some w => some w,
          TestCommand := other.TestCommand, OutputFile := other.OutputFile,
          ConfigFile := c.ConfigFile, Template := other.Template,
          DumpTemplate := other.DumpTemplate, DumpConfig := other.DumpConfig,
          Quiet := other.Quiet, AutoClean := other.AutoClean }) :=
  ⟨fun h => config.merge_none h, fun _ _ h hs => config.merge_some_ok h hs⟩

theorem claim_merge_whole_doc_amended_witness :
    (({ levels := none, CoveragePC := none, TestCommand := ['B'], OutputFile := [],
        ConfigFile := [], Template := [], DumpTemplate := false, DumpConfig := false,
        Quiet := false, AutoClean := false } : config).levels = none) ∧
    config.merge
        { levels := some [((90 : ℚ), ['#', '0', '0', 'f', 'f', '0', '0'])],
          CoveragePC := none, TestCommand := ['A'], OutputFile := ['x'],
          ConfigFile := ['s'], Template := [], DumpTemplate := true, DumpConfig := false,
          Quiet := false, AutoClean := false }
        { levels := none, CoveragePC := none, TestCommand := ['B'], OutputFile := [],
          ConfigFile := [], Template := [], DumpTemplate := false, DumpConfig := false,
          Quiet := false, AutoClean := false } = Except.ok
      { levels := some [((90 : ℚ), ['#', '0', '0', 'f', 'f', '0', '0'])],
        CoveragePC := none, TestCommand := ['B'], OutputFile := [],
        ConfigFile := ['s'], Template := [], DumpTemplate := false, DumpConfig := false,
        Quiet := false, AutoClean := false } :=
  ⟨rfl, (claim_merge_whole_doc_amended _ _).1 rfl⟩

/-- C4 counterexample: `Levels.Set` on `80=#0f0,xyz` returns the
malformed-pair error, yet the receiver is left holding the entry parsed
from the earlier well-formed pair — the parse has partially applied. -/
theorem claim_set_atomicity_counterexample :
    Levels.set ['8', '0', '=', '#', '0', 'f', '0', ',', 'x', 'y', 'z'] =
      ([((80 : ℚ), ['#', '0', 'f', '0'])],
        some (SetErr.errInvalidLevelFormat ['x', 'y', 'z'])) ∧
      ([((80 : ℚ), ['#', '0', 'f', '0'])] : Levels) ≠ ([] : Levels) :=
  ⟨by decide, by decide⟩

/-- C4 amended: `Levels.Set` is fatal on error — the error is returned and
no successful table accompanies it — but it is not atomic on the receiver:
the receiver is reset at entry and populated pair by pair, so on error it
holds exactly the (possibly non-empty) table of the segments preceding the
failing one, the failing segment erroring from that state. -/
theorem claim_set_error_keeps_earlier_pairs (value : List Char) (tbl : Levels) (e : SetErr)
    (h : Levels.set value = (tbl, some e)) :
    ∃ pre part post, splitComma value = pre ++ part :: post ∧
      setGo pre [] = (tbl, none) ∧ (setGo [part] tbl).2 = some e :=
  setGo_error_split h

theorem claim_set_error_keeps_earlier_pairs_witness :
    Levels.set ['8', '0', '=', '#', '0', 'f', '0', ',', 'x', 'y', 'z'] =
      ([((80 : ℚ), ['#', '0', 'f', '0'])],
        some (SetErr.errInvalidLevelFormat ['x', 'y', 'z'])) ∧
      ∃ pre part post,
        splitComma ['8', '0', '=', '#', '0', 'f', '0', ',', 'x', 'y', 'z'] =
          pre ++ part :: post ∧
        setGo pre [] = ([((80 : ℚ), ['#', '0', 'f', '0'])], none) ∧
        (setGo [part] [((80 : ℚ), ['#', '0', 'f', '0'])]).2 =
          some (SetErr.errInvalidLevelFormat ['x', 'y', 'z']) :=
  ⟨by decide,
    claim_set_error_keeps_earlier_pairs ['8', '0', '=', '#', '0', 'f', '0', ',', 'x', 'y', 'z']
      [((80 : ℚ), ['#', '0', 'f', '0'])]
      (SetErr.errInvalidLevelFormat ['x', 'y', 'z']) (by decide)⟩

/-- C6 counterexample: the segment `80=#00ff00=e` contains two `=`, but
`Levels.Set` reports the invalid-color error for the text after the first
`=`, not the malformed-pair format error — `SplitN(part, "=", 2)` never
yields the format error when an `=` is present; and on `80=zz,noeq`,
whose second segment lacks `=`, the parse still reports the invalid-color
error of the first segment, not a format error (first error wins). -/
theorem claim_set_multi_eq_counterexample :
    Levels.set ['8', '0', '=', '#', '0', '0', 'f', 'f', '0', '0', '=', 'e'] =
      ([], some (SetErr.errInvalidHexColor
        ['#', '0', '0', 'f', 'f', '0', '0', '=', 'e'])) ∧
      (∀ tok, (Levels.set ['8', '0', '=', '#', '0', '0', 'f', 'f', '0', '0', '=', 'e']).2 ≠
        some (SetErr.errInvalidLevelFormat tok)) ∧
      Levels.set ['8', '0', '=', 'z', 'z', ',', 'n', 'o', 'e', 'q'] =
        ([], some (SetErr.errInvalidHexColor ['z', 'z'])) ∧
      ('=' ∉ ['n', 'o', 'e', 'q']) ∧
      (∀ tok, (Levels.set ['8', '0', '=', 'z', 'z', ',', 'n', 'o', 'e', 'q']).2 ≠
        some (SetErr.errInvalidLevelFormat tok)) := by
  have h0 : Levels.set ['8', '0', '=', '#', '0', '0', 'f', 'f', '0', '0', '=', 'e'] =
      ([], some (SetErr.errInvalidHexColor
        ['#', '0', '0', 'f', 'f', '0', '0', '=', 'e'])) := by decide
  have h1 : Levels.set ['8', '0', '=', 'z', 'z', ',', 'n', 'o', 'e', 'q'] =
      ([], some (SetErr.errInvalidHexColor ['z', 'z'])) := by decide
  refine ⟨h0, fun tok h => ?_, h1, by decide, fun tok h => ?_⟩
  · rw [h0] at h
    simp at h
  · rw [h1] at h
    simp at h

/-- C6 amended: a non-empty segment with no `=` makes `Levels.Set` fail
with the malformed-pair format error carrying that segment, provided the
preceding segments parse cleanly (errors are reported left to right); a
segment with more than one `=` also makes the parse fail, but never with
the format error: the text after the first `=` can contain `=`, which no
valid color does, so the failure is the numeric-parse error or the
invalid-color error. -/
theorem claim_set_format_error_spec :
    (∀ (value : List Char) (pre : List (List Char)) (part : List Char)
        (post : List (List Char)) (tbl : Levels),
      splitComma value = pre ++ part :: post →
      setGo pre [] = (tbl, none) →
      trimSpace part ≠ [] →
      splitEq2 (trimSpace part) = none →
      Levels.set value = (tbl, some (SetErr.errInvalidLevelFormat (trimSpace part)))) ∧
    (∀ (value : List Char) (pre : List (List Char)) (part : List Char)
        (post : List (List Char)) (tbl : Levels),
      splitComma value = pre ++ part :: post →
      setGo pre [] = (tbl, none) →
      2 ≤ List.count '=' (trimSpace part) →
      ∃ tok, (Levels.set value).2 = some (SetErr.errInvalidLevelNumber tok) ∨
        (Levels.set value).2 = some (SetErr.errInvalidHexColor tok)) := by
  constructor
  · intro value pre part post tbl hsplit hpre hp hsp
    show setGo (splitComma value) [] = _
    rw [hsplit, setGo_append, hpre]
    show setGo (part :: post) tbl = _
    exact setGo_cons_format _ _ hp hsp
  · intro value pre part post tbl hsplit hpre h2
    obtain ⟨tok, hor⟩ := setGo_multi_eq post tbl h2
    refine ⟨tok, ?_⟩
    show (setGo (splitComma value) []).2 = _ ∨ (setGo (splitComma value) []).2 = _
    rw [hsplit, setGo_append, hpre]
    show (setGo (part :: post) tbl).2 = _ ∨ (setGo (part :: post) tbl).2 = _
    rcases hor with h | h
    · exact Or.inl (by rw [h])
    · exact Or.inr (by rw [h])

theorem claim_set_format_error_spec_witness :
    splitComma ['9', '0', '=', '#', '0', 'f', '0', ',', '8', '0', '#', '0', 'f', '0'] =
      [['9', '0', '=', '#', '0', 'f', '0']] ++ ['8', '0', '#', '0', 'f', '0'] :: [] ∧
    setGo [['9', '0', '=', '#', '0', 'f', '0']] [] =
      ([((90 : ℚ), ['#', '0', 'f', '0'])], none) ∧
    trimSpace ['8', '0', '#', '0', 'f', '0'] ≠ [] ∧
    splitEq2 (trimSpace ['8', '0', '#', '0', 'f', '0']) = none ∧
    Levels.set ['9', '0', '=', '#', '0', 'f', '0', ',', '8', '0', '#', '0', 'f', '0'] =
      ([((90 : ℚ), ['#', '0', 'f', '0'])],
        some (SetErr.errInvalidLevelFormat ['8', '0', '#', '0', 'f', '0'])) ∧
    2 ≤ List.count '=' (trimSpace ['8', '0', '=', '#', '0', 'f', '0', '=', 'e']) ∧
    (∃ tok,
      (Levels.set ['8', '0', '=', '#', '0', 'f', '0', '=', 'e']).2 =
        some (SetErr.errInvalidLevelNumber tok) ∨
      (Levels.set ['8', '0', '=', '#', '0', 'f', '0', '=', 'e']).2 =
        some (SetErr.errInvalidHexColor tok)) :=
  ⟨by decide, by decide, by decide, by decide,
    claim_set_format_error_spec.1
      ['9', '0', '=', '#', '0', 'f', '0', ',', '8', '0', '#', '0', 'f', '0']
      [['9', '0', '=', '#', '0', 'f', '0']] ['8', '0', '#', '0', 'f', '0'] []
      [((90 : ℚ), ['#', '0', 'f', '0'])] (by decide) (by decide) (by decide) (by decide),
    by decide,
    claim_set_format_error_spec.2 ['8', '0', '=', '#', '0', 'f', '0', '=', 'e'] []
      ['8', '0', '=', '#', '0', 'f', '0', '=', 'e'] [] [] (by decide) (by decide)
      (by decide)⟩
